import Mathlib

/-!
# Simply typed lambda calculus: type checker and evaluator

A shallow embedding of `src/go/src/main.go`.

* Go's `Type`, `Expression` and `Value` are `interface{}`; the embedding uses the closed
  sets of variants the source inspects (`TInt`/`TArrow`, `EInt`/`EVariable`/`EAbstraction`/
  `EApplication`, `VInt`/`VClosure`/`VNative`), plus the two further objects that `Interpret`
  itself puts in the value position: Go's `nil` and the error object.
* Go's `Context` is a `map[string]interface{}`, a reference. `Infer` stores types in it and
  returns no reference to it, so `Infer` is modelled by threading the map through the calls.
  `Interpret` stores values in it and closures keep a reference to it, so `Interpret` works on
  a heap of maps addressed by reference.
* `Interpret` need not terminate, so it takes a fuel argument that bounds the recursion depth;
  `none` means the fuel ran out.
-/

namespace STLC

/-! ## Data model -/

/-- Go `Type`, restricted to the two variants the program constructs: `TInt{}` and
`TArrow{ParameterType, BodyType}`. -/
inductive Ty where
  | TInt : Ty
  | TArrow (ParameterType : Ty) (BodyType : Ty) : Ty
  deriving DecidableEq

/-- Go `Expression`, restricted to the four variants that `Infer` and `Interpret` inspect.
`EInt` is a Go `int`; the program never computes with it, so it is an unbounded integer here. -/
inductive Expression where
  | EInt (value : Int) : Expression
  | EVariable (name : String) : Expression
  | EAbstraction (Parameter : String) (ParameterType : Ty) (Body : Expression) : Expression
  | EApplication (Function : Expression) (Argument : Expression) : Expression
  deriving DecidableEq

/-- The only error of the program, `ErrTypeError` (`errors.WithStack` only decorates it). -/
inductive Error where
  | ErrTypeError : Error
  deriving DecidableEq

deriving instance DecidableEq for Except

/-- Go `Context` (`map[string]interface{}`) as a finite map read through its lookup function:
`none` is an absent key. -/
def Context (α : Type) : Type := String → Option α

/-- The map created by `make(Context)`. -/
def Context.empty {α : Type} : Context α := fun _ => none

/-- The assignment `context[key] = value`. -/
def Context.set {α : Type} (context : Context α) (key : String) (value : α) : Context α :=
  fun k => if k = key then some value else context k

/-! ## Type equality -/

/-- Source `isTInt`. -/
def isTInt : Ty → Bool
  | .TInt => true
  | .TArrow _ _ => false

/-- Source `typesEqual`: the `a == b` shortcut (Go compares the dynamic values, structs field by
field), the two-`TInt` case, then the two type assertions and the recursion on both fields. -/
def typesEqual : Ty → Ty → Bool
  | a, b =>
    if a = b then true
    else if isTInt a && isTInt b then true
    else
      match a with
      | .TArrow pa ba =>
        match b with
        | .TArrow pb bb => typesEqual pa pb && typesEqual ba bb
        | .TInt => false
      | .TInt => false

/-! ## Type checker -/

/-- Source `Infer`. The second component is the caller's map as the call leaves it. -/
def Infer : Context Ty → Expression → Except Error Ty × Context Ty
  | context, .EInt _ => (.ok .TInt, context)
  | context, .EVariable name =>
    match context name with
    | none => (.error .ErrTypeError, context)
    | some valueType => (.ok valueType, context)
  | context, .EAbstraction Parameter ParameterType Body =>
    match Infer (context.set Parameter ParameterType) Body with
    | (.error _, context1) => (.error .ErrTypeError, context1)
    | (.ok bodyType, context1) => (.ok (.TArrow ParameterType bodyType), context1)
  | context, .EApplication Function Argument =>
    match Infer context Function with
    | (.error _, context1) => (.error .ErrTypeError, context1)
    | (.ok functionType, context1) =>
      match Infer context1 Argument with
      | (.error _, context2) => (.error .ErrTypeError, context2)
      | (.ok argumentType, context2) =>
        match functionType with
        | .TArrow ParameterType BodyType =>
          if typesEqual ParameterType argumentType then (.ok BodyType, context2)
          else (.error .ErrTypeError, context2)
        | .TInt => (.error .ErrTypeError, context2)

/-! ## Evaluator -/

/-- Go `Value`: the three variants `Interpret` inspects (`VClosure.Context` is the reference of
the captured map, `VNative` the index of a host function), and the two other objects the source
returns in the value position: `VNil` is Go's `nil` (what indexing a map at an absent key gives)
and `VError` is an error object stored in a `Value`. -/
inductive Value where
  | VInt (value : Int) : Value
  | VClosure (Context : Nat) (Parameter : String) (Body : Expression) : Value
  | VNative (fn : Nat) : Value
  | VNil : Value
  | VError (err : Error) : Value
  deriving DecidableEq

/-- The maps that exist while `Interpret` runs, addressed by reference. `Interpret` never
creates a map, so the set of references is fixed. -/
def Heap : Type := Nat → Context Value

/-- The heap in which every map is empty. -/
def Heap.empty : Heap := fun _ => Context.empty

/-- The assignment `context[key] = value` on the map behind `ref`. -/
def Heap.set (heap : Heap) (ref : Nat) (key : String) (value : Value) : Heap :=
  fun r => if r = ref then (heap r).set key value else heap r

/-- The index expression `context[key]` without the comma-ok form: an absent key yields the
zero value of `interface{}`, `nil`. -/
def Context.get (context : Context Value) (key : String) : Value :=
  (context key).getD .VNil

/-- A host function behind `VNative`: it receives the argument and, being arbitrary Go code, may
write to the maps. -/
def Native : Type := Value → Heap → Value × Heap

/-- Source `Interpret`, on the map behind the reference `context`. The result is the Go pair
`(Value, error)` together with the heap as the call leaves it; `none` means that `fuel` nested
calls did not suffice. -/
def Interpret (natives : Nat → Native) :
    Nat → Heap → Nat → Expression → Option ((Value × Option Error) × Heap)
  | 0, _, _, _ => none
  | _ + 1, heap, _, .EInt value => some ((.VInt value, none), heap)
  | _ + 1, heap, context, .EVariable name => some (((heap context).get name, none), heap)
  | _ + 1, heap, context, .EAbstraction Parameter _ Body =>
    some ((.VClosure context Parameter Body, none), heap)
  | fuel + 1, heap, context, .EApplication Function Argument =>
    match Interpret natives fuel heap context Argument with
    | none => none
    | some ((_, some err), heap1) => some ((.VNil, some err), heap1)
    | some ((argument, none), heap1) =>
      match Interpret natives fuel heap1 context Function with
      | none => none
      | some ((_, some err), heap2) => some ((.VNil, some err), heap2)
      | some ((function, none), heap2) =>
        match function with
        | .VClosure closureContext Parameter Body =>
          Interpret natives fuel (heap2.set closureContext Parameter argument) closureContext Body
        | .VNative fn =>
          match natives fn argument heap2 with
          | (result, heap3) => some ((result, none), heap3)
        | _ => some ((.VError .ErrTypeError, none), heap2)

/-! ## Specification-side notions -/

/-- Specification: the standard typing rules of the simply typed lambda calculus with
lexically scoped contexts, as the claims word them. -/
inductive HasType : Context Ty → Expression → Ty → Prop where
  | int (Γ : Context Ty) (n : Int) : HasType Γ (.EInt n) .TInt
  | var (Γ : Context Ty) (x : String) (T : Ty) (h : Γ x = some T) : HasType Γ (.EVariable x) T
  | abs (Γ : Context Ty) (p : String) (T U : Ty) (b : Expression)
      (hb : HasType (Γ.set p T) b U) : HasType Γ (.EAbstraction p T b) (.TArrow T U)
  | app (Γ : Context Ty) (f a : Expression) (T U : Ty)
      (hf : HasType Γ f (.TArrow T U)) (ha : HasType Γ a T) : HasType Γ (.EApplication f a) U

/-- The names that occur free in an expression. -/
def freeVars : Expression → List String
  | .EInt _ => []
  | .EVariable x => [x]
  | .EAbstraction p _ b => (freeVars b).filter (fun x => x ≠ p)
  | .EApplication f a => freeVars f ++ freeVars a

/-- The parameter names of the abstractions of an expression, with repetitions. -/
def parameters : Expression → List String
  | .EInt _ => []
  | .EVariable _ => []
  | .EAbstraction p _ b => p :: parameters b
  | .EApplication f a => parameters f ++ parameters a

/-- A closed expression has no free variable. -/
def Closed (e : Expression) : Prop := freeVars e = []

/-- No two abstractions of the expression bind the same name. -/
def DistinctParameters (e : Expression) : Prop := (parameters e).Nodup

/-- No shadowing: no abstraction of the expression has, inside its body, an abstraction that
binds the same name again. Abstractions side by side may share a name. -/
def noShadowing : Expression → Bool
  | .EInt _ => true
  | .EVariable _ => true
  | .EAbstraction p _ b => decide (p ∉ parameters b) && noShadowing b
  | .EApplication f a => noShadowing f && noShadowing a

/-- A proper value of the value domain: `IntValue`, `Closure` or `NativeFunction`. -/
def Value.isProper : Value → Bool
  | .VInt _ => true
  | .VClosure _ _ _ => true
  | .VNative _ => true
  | .VNil => false
  | .VError _ => false

/-- Specification: the type that the lexically scoped rules give an expression, computed
with a context that is extended for the body of an abstraction only. -/
def typeOf : Context Ty → Expression → Option Ty
  | _, .EInt _ => some .TInt
  | Γ, .EVariable x => Γ x
  | Γ, .EAbstraction p T b => (typeOf (Γ.set p T) b).map (Ty.TArrow T)
  | Γ, .EApplication f a =>
    match typeOf Γ f, typeOf Γ a with
    | some (.TArrow T U), some t => if T = t then some U else none
    | _, _ => none

/-! ## Typing of run-time values -/

/-- The abstractions of an expression as pairs of parameter name and declared type. -/
def parameterTypes : Expression → List (String × Ty)
  | .EInt _ => []
  | .EVariable _ => []
  | .EAbstraction p T b => (p, T) :: parameterTypes b
  | .EApplication f a => parameterTypes f ++ parameterTypes a

/-- The first type paired with a name in a list of declarations. -/
def declaredIn : List (String × Ty) → Context Ty
  | [] => fun _ => none
  | (p, T) :: rest => fun x => if x = p then some T else declaredIn rest x

/-- Every abstraction of the expression declares for its parameter the type `Δ` gives it. -/
def Declares (Δ : Context Ty) (e : Expression) : Prop :=
  ∀ pT ∈ parameterTypes e, Δ pT.1 = some pT.2

/-- A value has a type in a heap, with `Δ` the declared types of all parameter names: an
`IntValue` has type `Int`; a `Closure` has the type of its abstraction when its body is typed
under `Δ` and the free variables of the body other than the parameter are bound in the captured
map. `nil`, the error object and host functions have no type. -/
def ValueHasType (Δ : Context Ty) (heap : Heap) : Value → Ty → Prop
  | .VInt _, .TInt => True
  | .VClosure context p b, .TArrow T U =>
    Δ p = some T ∧ Declares Δ b ∧ HasType Δ b U ∧
      ∀ x ∈ freeVars b, x ≠ p → heap context x ≠ none
  | _, _ => False

/-- Every binding of every map holds a value of the type declared for its name. -/
def StoreTyped (Δ : Context Ty) (heap : Heap) : Prop :=
  ∀ (context : Nat) (x : String) (v : Value), heap context x = some v →
    ∃ T : Ty, Δ x = some T ∧ ValueHasType Δ heap v T

/-- Every binding of the first heap is still a binding (of some value) in the second. -/
def Heap.BoundLE (heap heap1 : Heap) : Prop :=
  ∀ (context : Nat) (x : String), heap context x ≠ none → heap1 context x ≠ none

/-! ## Sample expressions -/

/-- The expression `(λf:Int. f) f`, whose argument is a free occurrence of the name that the
function binds. -/
def leakExample : Expression :=
  .EApplication (.EAbstraction "f" .TInt (.EVariable "f")) (.EVariable "f")

/-- The closed expression `λx:Int. (λx:Int→Int. x) x`, whose inner abstraction reuses the
name of the outer parameter. -/
def shadowAccepted : Expression :=
  .EAbstraction "x" .TInt
    (.EApplication (.EAbstraction "x" (.TArrow .TInt .TInt) (.EVariable "x")) (.EVariable "x"))

/-- The closed expression `λx:Int. (λx:Int→Int. 0) (λz:Int. x)`, whose inner abstraction
reuses the name of the outer parameter. -/
def shadowRejected : Expression :=
  .EAbstraction "x" .TInt
    (.EApplication (.EAbstraction "x" (.TArrow .TInt .TInt) (.EInt 0))
      (.EAbstraction "z" .TInt (.EVariable "x")))

/-- The closed expression `(λx:Int. x) ((λx:Int. x) 5)`, whose two abstractions, side by
side, bind the same name. -/
def siblingReuse : Expression :=
  .EApplication (.EAbstraction "x" .TInt (.EVariable "x"))
    (.EApplication (.EAbstraction "x" .TInt (.EVariable "x")) (.EInt 5))

/-- The identity on `Int` applied to `5`. -/
def identityApplied : Expression :=
  .EApplication (.EAbstraction "a" .TInt (.EVariable "a")) (.EInt 5)

/-- The closed expression `(λx:Int. (λx:Int→Int. x 1) x) 5`, whose inner abstraction reuses
the name of the outer parameter. -/
def shadowStuck : Expression :=
  .EApplication
    (.EAbstraction "x" .TInt
      (.EApplication
        (.EAbstraction "x" (.TArrow .TInt .TInt) (.EApplication (.EVariable "x") (.EInt 1)))
        (.EVariable "x")))
    (.EInt 5)

/-- The body `f x` of the looping closure of `knot`. -/
def knotBody : Expression := .EApplication (.EVariable "f") (.EVariable "x")

/-- The closed expression `(λg. g (g (λw:Int. w)) 1) (λf:Int→Int. λx:Int. f x)` with `g` of type
`(Int→Int)→(Int→Int)`; its four parameter names are pairwise distinct. -/
def knot : Expression :=
  .EApplication
    (.EAbstraction "g" (.TArrow (.TArrow .TInt .TInt) (.TArrow .TInt .TInt))
      (.EApplication
        (.EApplication (.EVariable "g")
          (.EApplication (.EVariable "g") (.EAbstraction "w" .TInt (.EVariable "w"))))
        (.EInt 1)))
    (.EAbstraction "f" (.TArrow .TInt .TInt) (.EAbstraction "x" .TInt knotBody))

/-- A table of host functions in which every entry is the identity. -/
def identityNatives : Nat → Native := fun _ v heap => (v, heap)

/-- The heap in which `knot` starts to loop: `f` is bound to the closure of `λx. f x` and `x`
to `1`. -/
def knotHeap : Heap :=
  (((Heap.empty.set 0 "g" (.VClosure 0 "f" (.EAbstraction "x" .TInt knotBody))).set 0 "f"
    (.VClosure 0 "w" (.EVariable "w"))).set 0 "f" (.VClosure 0 "x" knotBody)).set 0 "x" (.VInt 1)

/-- The expression `(λa:Int. 0) (1 2)`, whose argument applies an integer. -/
def propagationExample : Expression :=
  .EApplication (.EAbstraction "a" .TInt (.EInt 0)) (.EApplication (.EInt 1) (.EInt 2))

/-- The expression `((λx:Int→Int. x) (λz:Int. z)) x`, whose function part binds the name that
its argument reads. -/
def orderExample : Expression :=
  .EApplication
    (.EApplication (.EAbstraction "x" (.TArrow .TInt .TInt) (.EVariable "x"))
      (.EAbstraction "z" .TInt (.EVariable "z")))
    (.EVariable "x")

/-- Specification: the evaluator with the other order of evaluation, function before
argument. It is not in the source; it differs from `Interpret` in that order only and serves to
tell the two orders apart. -/
def InterpretFunctionFirst (natives : Nat → Native) :
    Nat → Heap → Nat → Expression → Option ((Value × Option Error) × Heap)
  | 0, _, _, _ => none
  | _ + 1, heap, _, .EInt value => some ((.VInt value, none), heap)
  | _ + 1, heap, context, .EVariable name => some (((heap context).get name, none), heap)
  | _ + 1, heap, context, .EAbstraction Parameter _ Body =>
    some ((.VClosure context Parameter Body, none), heap)
  | fuel + 1, heap, context, .EApplication Function Argument =>
    match InterpretFunctionFirst natives fuel heap context Function with
    | none => none
    | some ((_, some err), heap1) => some ((.VNil, some err), heap1)
    | some ((function, none), heap1) =>
      match InterpretFunctionFirst natives fuel heap1 context Argument with
      | none => none
      | some ((_, some err), heap2) => some ((.VNil, some err), heap2)
      | some ((argument, none), heap2) =>
        match function with
        | .VClosure closureContext Parameter Body =>
          InterpretFunctionFirst natives fuel (heap2.set closureContext Parameter argument)
            closureContext Body
        | .VNative fn =>
          match natives fn argument heap2 with
          | (result, heap3) => some ((result, none), heap3)
        | _ => some ((.VError .ErrTypeError, none), heap2)

/-! ## Notions for termination and for the shared store -/

/-- The nesting depth of an expression. -/
def depth : Expression → Nat
  | .EInt _ => 1
  | .EVariable _ => 1
  | .EAbstraction _ _ b => depth b + 1
  | .EApplication f a => max (depth f) (depth a) + 1

/-- The expression contains no application. -/
def applicationFree : Expression → Bool
  | .EInt _ => true
  | .EVariable _ => true
  | .EAbstraction _ _ b => applicationFree b
  | .EApplication _ _ => false

/-- No abstraction of the expression has an application in its body. -/
def bodiesApplicationFree : Expression → Bool
  | .EInt _ => true
  | .EVariable _ => true
  | .EAbstraction _ _ b => applicationFree b
  | .EApplication f a => bodiesApplicationFree f && bodiesApplicationFree a

/-- The value is no host function and, when it is a closure, it captures the map behind
`context` and its body contains no application. -/
def Value.Simple (context : Nat) : Value → Prop
  | .VClosure c _ b => c = context ∧ applicationFree b = true
  | .VNative _ => False
  | _ => True

/-- The value is no host function and, when it is a closure, it captures the map behind
`context`. -/
def Value.CapturesOnly (context : Nat) : Value → Prop
  | .VClosure c _ _ => c = context
  | .VNative _ => False
  | _ => True

/-- The body `x x` of the self-application. -/
def omegaBody : Expression := .EApplication (.EVariable "x") (.EVariable "x")

/-- The expression `(λx:Int. x x) (λx:Int. x x)`. -/
def omega : Expression :=
  .EApplication (.EAbstraction "x" .TInt omegaBody) (.EAbstraction "x" .TInt omegaBody)

/-- The expression `(λf:Int→Int. f 1) (λx:Int. f x)`. -/
def acceptedLoop : Expression :=
  .EApplication
    (.EAbstraction "f" (.TArrow .TInt .TInt) (.EApplication (.EVariable "f") (.EInt 1)))
    (.EAbstraction "x" .TInt knotBody)

/-- The expression `(λk:Int→Int. (λx:Int. k 0) 2) ((λx:Int. λy:Int. x) 1)`: the closure of
`λy. x` is created while `x` is `1` and called after `x` has been bound to `2`. -/
def dynamicExample : Expression :=
  .EApplication
    (.EAbstraction "k" (.TArrow .TInt .TInt)
      (.EApplication
        (.EAbstraction "x" .TInt (.EApplication (.EVariable "k") (.EInt 0)))
        (.EInt 2)))
    (.EApplication
      (.EAbstraction "x" .TInt (.EAbstraction "y" .TInt (.EVariable "x")))
      (.EInt 1))

/-! ## Type equality: lemmas -/

/-- Type-equality helper: `typesEqual` holds exactly for equal type trees. -/
theorem typesEqual_iff_eq (a : Ty) : ∀ b : Ty, typesEqual a b = true ↔ a = b := by
  induction a with
  | TInt =>
    intro b
    cases b with
    | TInt => simp [typesEqual]
    | TArrow p r => simp [typesEqual, isTInt]
  | TArrow pa ba ihp ihb =>
    intro b
    cases b with
    | TInt => simp [typesEqual, isTInt]
    | TArrow pb bb =>
      unfold typesEqual
      by_cases h : Ty.TArrow pa ba = Ty.TArrow pb bb
      · simp [h]
      · rw [if_neg h]
        simp only [isTInt, Bool.false_and, Bool.false_eq_true, if_false, Bool.and_eq_true,
          ihp, ihb, Ty.TArrow.injEq]

/-- Type-equality helper: the Boolean value of `typesEqual` is that of the equality test. -/
theorem typesEqual_eq_decide (a b : Ty) : typesEqual a b = decide (a = b) := by
  by_cases h : a = b
  · simp [h, (typesEqual_iff_eq b b).2 rfl]
  · have hne : ¬ typesEqual a b = true := fun ht => h ((typesEqual_iff_eq a b).1 ht)
    simp [h, hne]

/-- Claim C8: `typesEqual` is reflexive and symmetric on the types built from `TInt` and
`TArrow`: `typesEqual a a` is true and `typesEqual a b = typesEqual b a`. -/
theorem typesEqual_refl_symm (a b : Ty) :
    typesEqual a a = true ∧ typesEqual a b = typesEqual b a := by
  refine ⟨(typesEqual_iff_eq a a).2 rfl, ?_⟩
  rw [typesEqual_eq_decide, typesEqual_eq_decide]
  by_cases h : a = b
  · simp [h]
  · have h2 : ¬ b = a := fun e => h e.symm
    simp [h, h2]

/-- Claim C9: `typesEqual` decides structural equality of types: it is true exactly when the two
type trees are the same; two `TInt` are equal, two `TArrow` are equal iff their parameter types
are and their result types are, and a `TInt` and a `TArrow` are unequal in either order. -/
theorem typesEqual_structural :
    (∀ a b : Ty, typesEqual a b = true ↔ a = b) ∧
    typesEqual .TInt .TInt = true ∧
    (∀ p1 r1 p2 r2 : Ty, typesEqual (.TArrow p1 r1) (.TArrow p2 r2) = true ↔
      (typesEqual p1 p2 = true ∧ typesEqual r1 r2 = true)) ∧
    (∀ p r : Ty, typesEqual .TInt (.TArrow p r) = false ∧
      typesEqual (.TArrow p r) .TInt = false) := by
  refine ⟨fun a b => typesEqual_iff_eq a b, by simp [typesEqual], ?_, ?_⟩
  · intro p1 r1 p2 r2
    simp only [typesEqual_iff_eq, Ty.TArrow.injEq]
  · intro p r
    simp [typesEqual, isTInt]

/-! ## Type checker: case by case -/

/-- Claim C7: on an integer literal `Infer` succeeds with `TInt`, whatever the context, and
leaves the context as it was. -/
theorem Infer_EInt (context : Context Ty) (n : Int) :
    Infer context (.EInt n) = (.ok .TInt, context) := rfl

/-- Claim C6: on a variable `Infer` succeeds with the type bound to the name exactly when the
name is a key of the context and fails with `ErrTypeError` exactly when it is not, leaving the
context as it was; on the empty context `Variable("x")` fails. -/
theorem Infer_EVariable (context : Context Ty) (x : String) :
    (∀ T : Ty, (Infer context (.EVariable x)).1 = .ok T ↔ context x = some T) ∧
    ((Infer context (.EVariable x)).1 = .error .ErrTypeError ↔ context x = none) ∧
    (Infer context (.EVariable x)).2 = context ∧
    (Infer Context.empty (.EVariable "x")).1 = .error .ErrTypeError := by
  refine ⟨?_, ?_, ?_, rfl⟩
  · intro T
    unfold Infer
    cases h : context x <;> simp
  · unfold Infer
    cases h : context x <;> simp
  · unfold Infer
    cases h : context x <;> simp

/-- Claim C5: on an abstraction `Infer` binds the parameter to its declared type in the
context and infers the body there; it succeeds, with `TArrow T U`, exactly when the body
inference succeeds with `U`, and fails with `ErrTypeError` exactly when the body inference
fails; the context it leaves is the one the body inference leaves. The two sample abstractions
get `Int → Int` and `Int → ((Int → Int) → (Int → Int))` on the empty context. -/
theorem Infer_EAbstraction (context : Context Ty) (p : String) (T : Ty) (b : Expression) :
    (∀ t : Ty, (Infer context (.EAbstraction p T b)).1 = .ok t ↔
      ∃ U : Ty, t = .TArrow T U ∧ (Infer (context.set p T) b).1 = .ok U) ∧
    ((Infer context (.EAbstraction p T b)).1 = .error .ErrTypeError ↔
      ∃ err : Error, (Infer (context.set p T) b).1 = .error err) ∧
    (Infer context (.EAbstraction p T b)).2 = (Infer (context.set p T) b).2 ∧
    (Infer Context.empty (.EAbstraction "a" .TInt (.EVariable "a"))).1
      = .ok (.TArrow .TInt .TInt) ∧
    (Infer Context.empty
        (.EAbstraction "a" .TInt (.EAbstraction "b" (.TArrow .TInt .TInt) (.EVariable "b")))).1
      = .ok (.TArrow .TInt (.TArrow (.TArrow .TInt .TInt) (.TArrow .TInt .TInt))) := by
  refine ⟨?_, ?_, ?_, by decide, by decide⟩
  · intro t
    rw [Infer]
    rcases h : Infer (context.set p T) b with ⟨r, c⟩
    cases r with
    | error e => simp
    | ok U => simp [eq_comm]
  · rw [Infer]
    rcases h : Infer (context.set p T) b with ⟨r, c⟩
    cases r with
    | error e => simp; exact ⟨e, trivial⟩
    | ok U => simp
  · rw [Infer]
    rcases h : Infer (context.set p T) b with ⟨r, c⟩
    cases r <;> simp

/-- Claim C4: on an application `Infer` infers the function on the context and then the
argument on the context the function inference leaves; it succeeds, with `r`, exactly when the
function's type is `TArrow p r` and the argument's type `t` has `typesEqual p t`, and it fails
with `ErrTypeError` in every other case; the context it leaves is the one left by the last
sub-inference that ran. The identity on `Int` applied to `5` gets `Int`; with the parameter type
`Int → Int` the application fails. -/
theorem Infer_EApplication (context : Context Ty) (f a : Expression) :
    (∀ r : Ty, (Infer context (.EApplication f a)).1 = .ok r ↔
      ∃ p t : Ty, (Infer context f).1 = .ok (.TArrow p r) ∧
        (Infer (Infer context f).2 a).1 = .ok t ∧ typesEqual p t = true) ∧
    ((Infer context (.EApplication f a)).1 = .error .ErrTypeError ↔
      ¬ ∃ r p t : Ty, (Infer context f).1 = .ok (.TArrow p r) ∧
        (Infer (Infer context f).2 a).1 = .ok t ∧ typesEqual p t = true) ∧
    ((Infer context (.EApplication f a)).2 =
      match (Infer context f).1 with
      | .error _ => (Infer context f).2
      | .ok _ => (Infer (Infer context f).2 a).2) ∧
    (Infer Context.empty
        (.EApplication (.EAbstraction "a" .TInt (.EVariable "a")) (.EInt 5))).1 = .ok .TInt ∧
    (Infer Context.empty
        (.EApplication (.EAbstraction "a" (.TArrow .TInt .TInt) (.EVariable "a")) (.EInt 5))).1
      = .error .ErrTypeError := by
  refine ⟨?_, ?_, ?_, by decide, by decide⟩
  · intro r
    rw [Infer]
    rcases hf : Infer context f with ⟨rf, c1⟩
    cases rf with
    | error e => simp
    | ok tf =>
      rcases ha : Infer c1 a with ⟨ra, c2⟩
      cases ra with
      | error e => simp [ha]
      | ok ta =>
        cases tf with
        | TInt => simp [ha]
        | TArrow p0 r0 =>
          by_cases ht : typesEqual p0 ta = true
          · simp [ha, ht]
            constructor
            · intro h; exact ⟨p0, ⟨rfl, h⟩, ht⟩
            · rintro ⟨p, ⟨rfl, rfl⟩, _⟩; rfl
          · simp [ha, ht]
  · rw [Infer]
    rcases hf : Infer context f with ⟨rf, c1⟩
    cases rf with
    | error e => simp
    | ok tf =>
      rcases ha : Infer c1 a with ⟨ra, c2⟩
      cases ra with
      | error e => simp [ha]
      | ok ta =>
        cases tf with
        | TInt => simp [ha]
        | TArrow p0 r0 =>
          by_cases ht : typesEqual p0 ta = true
          · simp [ha, ht]
          · simp [ha, ht]
  · rw [Infer]
    rcases hf : Infer context f with ⟨rf, c1⟩
    cases rf with
    | error e => simp
    | ok tf =>
      rcases ha : Infer c1 a with ⟨ra, c2⟩
      cases ra with
      | error e => simp [ha]
      | ok ta =>
        cases tf with
        | TInt => simp [ha]
        | TArrow p0 r0 =>
          by_cases ht : typesEqual p0 ta = true <;> simp [ha, ht]

/-! ## The typing rules: inversion -/

/-- Typing helper: inversion of the rule for literals. -/
theorem HasType_EInt_iff (Γ : Context Ty) (n : Int) (t : Ty) :
    HasType Γ (.EInt n) t ↔ t = .TInt := by
  constructor
  · intro h; cases h; rfl
  · rintro rfl; exact .int Γ n

/-- Typing helper: inversion of the rule for variables. -/
theorem HasType_EVariable_iff (Γ : Context Ty) (x : String) (t : Ty) :
    HasType Γ (.EVariable x) t ↔ Γ x = some t := by
  constructor
  · intro h; cases h; assumption
  · intro h; exact .var Γ x t h

/-- Typing helper: inversion of the rule for abstractions. -/
theorem HasType_EAbstraction_iff (Γ : Context Ty) (p : String) (T : Ty) (b : Expression)
    (t : Ty) :
    HasType Γ (.EAbstraction p T b) t ↔ ∃ U : Ty, t = .TArrow T U ∧ HasType (Γ.set p T) b U := by
  constructor
  · intro h
    cases h with
    | abs _ _ _ U _ hb => exact ⟨U, rfl, hb⟩
  · rintro ⟨U, rfl, hb⟩; exact .abs Γ p T U b hb

/-- Typing helper: inversion of the rule for applications. -/
theorem HasType_EApplication_iff (Γ : Context Ty) (f a : Expression) (t : Ty) :
    HasType Γ (.EApplication f a) t ↔
      ∃ T : Ty, HasType Γ f (.TArrow T t) ∧ HasType Γ a T := by
  constructor
  · intro h
    cases h with
    | app _ _ _ T _ hf ha => exact ⟨T, hf, ha⟩
  · rintro ⟨T, hf, ha⟩; exact .app Γ f a T t hf ha

/-- Typing helper: the rules assign a type exactly when `typeOf` computes it. -/
theorem HasType_iff_typeOf (e : Expression) :
    ∀ (Γ : Context Ty) (t : Ty), HasType Γ e t ↔ typeOf Γ e = some t := by
  induction e with
  | EInt n =>
    intro Γ t
    rw [HasType_EInt_iff]; simp [typeOf, eq_comm]
  | EVariable x =>
    intro Γ t
    rw [HasType_EVariable_iff]; simp [typeOf]
  | EAbstraction p T b ih =>
    intro Γ t
    rw [HasType_EAbstraction_iff]
    simp only [typeOf, Option.map_eq_some', ih]
    constructor
    · rintro ⟨U, rfl, h⟩; exact ⟨U, h, rfl⟩
    · rintro ⟨U, h, rfl⟩; exact ⟨U, rfl, h⟩
  | EApplication f a ihf iha =>
    intro Γ t
    rw [HasType_EApplication_iff]
    simp only [ihf, iha, typeOf]
    constructor
    · rintro ⟨T, hf, ha⟩
      simp [hf, ha]
    · intro h
      cases hf : typeOf Γ f with
      | none => simp [hf] at h
      | some tf =>
        cases ha : typeOf Γ a with
        | none => simp [hf, ha] at h
        | some ta =>
          cases tf with
          | TInt => simp [hf, ha] at h
          | TArrow T U =>
            simp only [hf, ha] at h
            by_cases hT : T = ta
            · simp [hT] at h
              subst hT; subst h
              exact ⟨T, rfl, rfl⟩
            · simp [hT] at h

/-- Typing helper: every free variable of a typed expression is bound in the context. -/
theorem HasType_freeVars {Γ : Context Ty} {e : Expression} {t : Ty} (h : HasType Γ e t) :
    ∀ x ∈ freeVars e, Γ x ≠ none := by
  induction h with
  | int Γ n => intro x hx; simp [freeVars] at hx
  | var Γ y T hy =>
    intro x hx
    simp only [freeVars, List.mem_singleton] at hx
    subst hx; simp [hy]
  | abs Γ p T U b hb ih =>
    intro x hx
    simp only [freeVars, List.mem_filter, decide_eq_true_eq] at hx
    have := ih x hx.1
    simpa [Context.set, hx.2] using this
  | app Γ f a T U hf ha ihf iha =>
    intro x hx
    simp only [freeVars, List.mem_append] at hx
    rcases hx with hx | hx
    · exact ihf x hx
    · exact iha x hx

/-- Typing helper: an expression typed in the empty context is closed. -/
theorem HasType_empty_closed {e : Expression} {t : Ty} (h : HasType Context.empty e t) :
    Closed e := by
  unfold Closed
  rw [List.eq_nil_iff_forall_not_mem]
  intro x hx
  exact HasType_freeVars h x hx rfl

/-! ## The type checker against the typing rules -/

/-- Checker helper: the result of `Infer` on an abstraction. -/
theorem Infer_abs_ok_iff (context : Context Ty) (p : String) (T : Ty) (b : Expression) (t : Ty) :
    (Infer context (.EAbstraction p T b)).1 = .ok t ↔
      ∃ U : Ty, t = .TArrow T U ∧ (Infer (context.set p T) b).1 = .ok U := by
  rw [Infer]
  rcases h : Infer (context.set p T) b with ⟨r, c⟩
  cases r with
  | error e => simp
  | ok U => simp [eq_comm]

/-- Checker helper: the context `Infer` leaves on an abstraction. -/
theorem Infer_abs_snd (context : Context Ty) (p : String) (T : Ty) (b : Expression) :
    (Infer context (.EAbstraction p T b)).2 = (Infer (context.set p T) b).2 := by
  rw [Infer]
  rcases h : Infer (context.set p T) b with ⟨r, c⟩
  cases r <;> simp

/-- Checker helper: the result of `Infer` on an application. -/
theorem Infer_app_ok_iff (context : Context Ty) (f a : Expression) (r : Ty) :
    (Infer context (.EApplication f a)).1 = .ok r ↔
      ∃ p : Ty, (Infer context f).1 = .ok (.TArrow p r) ∧
        (Infer (Infer context f).2 a).1 = .ok p := by
  rw [Infer]
  rcases hf : Infer context f with ⟨rf, c1⟩
  cases rf with
  | error e => simp
  | ok tf =>
    rcases ha : Infer c1 a with ⟨ra, c2⟩
    cases ra with
    | error e => simp [ha]
    | ok ta =>
      cases tf with
      | TInt => simp [ha]
      | TArrow p0 r0 =>
        by_cases ht : p0 = ta
        · subst ht
          simp [ha, (typesEqual_iff_eq p0 p0).2 rfl]
        · have hne : ¬ typesEqual p0 ta = true := fun h => ht ((typesEqual_iff_eq p0 ta).1 h)
          simp [ha, hne]
          rintro rfl _
          exact ht rfl

/-- Checker helper: the context `Infer` leaves on an application is the one left by the last
sub-inference that ran. -/
theorem Infer_app_snd (context : Context Ty) (f a : Expression) :
    (Infer context (.EApplication f a)).2 = (Infer context f).2 ∨
    (Infer context (.EApplication f a)).2 = (Infer (Infer context f).2 a).2 := by
  rw [Infer]
  rcases hf : Infer context f with ⟨rf, c1⟩
  cases rf with
  | error e => simp
  | ok tf =>
    rcases ha : Infer c1 a with ⟨ra, c2⟩
    cases ra with
    | error e => simp [ha]
    | ok ta =>
      cases tf with
      | TInt => simp [ha]
      | TArrow p0 r0 =>
        by_cases ht : typesEqual p0 ta = true <;> simp [ha, ht]

/-- Checker helper: `Infer` writes only at parameter names of the expression. -/
theorem Infer_frame (e : Expression) :
    ∀ (context : Context Ty) (x : String), x ∉ parameters e → (Infer context e).2 x = context x := by
  induction e with
  | EInt n => intro context x _; rfl
  | EVariable y =>
    intro context x _
    unfold Infer
    cases context y <;> rfl
  | EAbstraction p T b ih =>
    intro context x hx
    simp only [parameters, List.mem_cons, not_or] at hx
    rw [Infer_abs_snd, ih _ x hx.2]
    simp [Context.set, hx.1]
  | EApplication f a ihf iha =>
    intro context x hx
    simp only [parameters, List.mem_append, not_or] at hx
    rcases Infer_app_snd context f a with h | h
    · rw [h, ihf _ x hx.1]
    · rw [h, iha _ x hx.2, ihf _ x hx.1]

/-- Checker helper: when `e` has no shadowing and none of its parameter names is free in `e`,
and the mutable context agrees with the lexical context on the free variables of `e`, `Infer`
succeeds with `t` exactly when the typing rules give `e` the type `t`. -/
theorem Infer_ok_iff_HasType_of_noShadowing (e : Expression) :
    ∀ (context Γ : Context Ty), noShadowing e = true →
      (∀ x ∈ freeVars e, x ∉ parameters e) → (∀ x ∈ freeVars e, context x = Γ x) →
      ∀ t : Ty, ((Infer context e).1 = .ok t ↔ HasType Γ e t) := by
  induction e with
  | EInt n =>
    intro context Γ _ _ _ t
    rw [HasType_EInt_iff]
    simp [Infer, eq_comm]
  | EVariable y =>
    intro context Γ _ _ hag t
    rw [HasType_EVariable_iff, ← hag y (by simp [freeVars])]
    unfold Infer
    cases h : context y <;> simp
  | EAbstraction p T b ih =>
    intro context Γ hns hfp hag t
    simp only [noShadowing, Bool.and_eq_true, decide_eq_true_eq] at hns
    rw [Infer_abs_ok_iff, HasType_EAbstraction_iff]
    have key : ∀ U : Ty, ((Infer (context.set p T) b).1 = .ok U ↔ HasType (Γ.set p T) b U) := by
      apply ih (context.set p T) (Γ.set p T) hns.2
      · intro x hx hxp
        by_cases hxe : x = p
        · subst hxe; exact hns.1 hxp
        · have : x ∈ freeVars (.EAbstraction p T b) := by
            simp [freeVars, hx, hxe]
          exact hfp x this (by simp [parameters, hxp])
      · intro x hx
        by_cases hxe : x = p
        · simp [Context.set, hxe]
        · have : x ∈ freeVars (.EAbstraction p T b) := by
            simp [freeVars, hx, hxe]
          simpa [Context.set, hxe] using hag x this
    simp only [key]
  | EApplication f a ihf iha =>
    intro context Γ hns hfp hag t
    simp only [noShadowing, Bool.and_eq_true] at hns
    rw [Infer_app_ok_iff, HasType_EApplication_iff]
    have keyf : ∀ U : Ty, ((Infer context f).1 = .ok U ↔ HasType Γ f U) := by
      apply ihf context Γ hns.1
      · intro x hx hxp
        exact hfp x (by simp [freeVars, hx]) (by simp [parameters, hxp])
      · intro x hx
        exact hag x (by simp [freeVars, hx])
    have keya : ∀ U : Ty, ((Infer (Infer context f).2 a).1 = .ok U ↔ HasType Γ a U) := by
      apply iha (Infer context f).2 Γ hns.2
      · intro x hx hxp
        exact hfp x (by simp [freeVars, hx]) (by simp [parameters, hxp])
      · intro x hx
        have hxf : x ∉ parameters f := fun hxp =>
          hfp x (by simp [freeVars, hx]) (by simp [parameters, hxp])
        rw [Infer_frame f context x hxf]
        exact hag x (by simp [freeVars, hx])
    simp only [keyf, keya]

/-- Checker helper: pairwise distinct parameter names leave no room for shadowing. -/
theorem noShadowing_of_nodup (e : Expression) :
    (parameters e).Nodup → noShadowing e = true := by
  induction e with
  | EInt n => intro _; rfl
  | EVariable y => intro _; rfl
  | EAbstraction p T b ih =>
    intro hnd
    simp only [parameters, List.nodup_cons] at hnd
    simp [noShadowing, hnd.1, ih hnd.2]
  | EApplication f a ihf iha =>
    intro hnd
    simp only [parameters, List.nodup_append] at hnd
    simp [noShadowing, ihf hnd.1, iha hnd.2.1]

/-- Checker helper: when the parameter names of `e` are pairwise distinct and none of them is
free in `e`, and the mutable context agrees with the lexical context on the free variables of
`e`, `Infer` succeeds with `t` exactly when the typing rules give `e` the type `t`. -/
theorem Infer_ok_iff_HasType (e : Expression) :
    ∀ (context Γ : Context Ty), (parameters e).Nodup →
      (∀ x ∈ freeVars e, x ∉ parameters e) → (∀ x ∈ freeVars e, context x = Γ x) →
      ∀ t : Ty, ((Infer context e).1 = .ok t ↔ HasType Γ e t) :=
  fun context Γ hnd hfp hag t =>
    Infer_ok_iff_HasType_of_noShadowing e context Γ (noShadowing_of_nodup e hnd) hfp hag t

/-- Claim C2, counterexample: `Infer` accepts `(λf:Int. f) f` on the empty context with type
`Int` although `f`, the name of its parameter, is free in it and the typing rules give it no
type; and it accepts the closed `λx:Int. (λx:Int→Int. x) x`, whose inner abstraction shadows
the outer parameter, with `Int → (Int → Int)`, a type the rules do not give it. -/
theorem Infer_sound_counterexample :
    ((Infer Context.empty leakExample).1 = .ok .TInt ∧
      freeVars leakExample = ["f"] ∧ parameters leakExample = ["f"] ∧
      ¬ HasType Context.empty leakExample .TInt) ∧
    ((Infer Context.empty shadowAccepted).1 = .ok (.TArrow .TInt (.TArrow .TInt .TInt)) ∧
      Closed shadowAccepted ∧ noShadowing shadowAccepted = false ∧
      ¬ HasType Context.empty shadowAccepted (.TArrow .TInt (.TArrow .TInt .TInt))) := by
  refine ⟨⟨by decide, by decide, by decide, ?_⟩, by decide, ?_, by decide, ?_⟩
  · rw [HasType_iff_typeOf]; decide
  · unfold Closed; decide
  · rw [HasType_iff_typeOf]; decide

/-- Claim C2, amended: when `e` has no shadowing (no abstraction has, inside its body, an
abstraction that binds the same name again) and no parameter name of `e` occurs free in `e`,
success of `Infer` on the empty context with `t` implies that `e` has type `t` under the
lexically scoped typing rules in the empty context; in particular `e` is closed. -/
theorem Infer_sound (e : Expression) (t : Ty) (hs : noShadowing e = true)
    (hf : ∀ x ∈ freeVars e, x ∉ parameters e)
    (h : (Infer Context.empty e).1 = .ok t) :
    HasType Context.empty e t ∧ Closed e := by
  have ht : HasType Context.empty e t :=
    (Infer_ok_iff_HasType_of_noShadowing e Context.empty Context.empty hs hf
      (fun _ _ => rfl) t).1 h
  exact ⟨ht, HasType_empty_closed ht⟩

/-- Witness: `(λx:Int. x) ((λx:Int. x) 5)`, whose two abstractions bind the same name side by
side, meets the hypotheses of the soundness statement and gets the type `Int` from the rules. -/
theorem Infer_sound_witness :
    HasType Context.empty siblingReuse .TInt ∧ Closed siblingReuse :=
  Infer_sound siblingReuse .TInt (by decide) (by decide) (by decide)

/-- Claim C3, counterexample: the closed expression `λx:Int. (λx:Int→Int. 0) (λz:Int. x)`,
whose inner abstraction shadows the outer parameter, has type `Int → Int` under the lexically
scoped rules in the empty context, and `Infer` on the empty context fails on it. -/
theorem Infer_complete_counterexample :
    Closed shadowRejected ∧ noShadowing shadowRejected = false ∧
    HasType Context.empty shadowRejected (.TArrow .TInt .TInt) ∧
    (Infer Context.empty shadowRejected).1 = .error .ErrTypeError := by
  refine ⟨?_, by decide, ?_, by decide⟩
  · unfold Closed; decide
  · rw [HasType_iff_typeOf]; decide

/-- Claim C3, amended: when `e` has no shadowing (no abstraction has, inside its body, an
abstraction that binds the same name again) and `e` has type `t` under the lexically scoped
typing rules in the empty context (so `e` is closed), `Infer` on the empty context succeeds with
a type structurally equal to `t`, in fact with `t`. -/
theorem Infer_complete (e : Expression) (t : Ty) (hs : noShadowing e = true)
    (h : HasType Context.empty e t) :
    Closed e ∧ ∃ t' : Ty, (Infer Context.empty e).1 = .ok t' ∧ typesEqual t' t = true ∧
      t' = t := by
  have hc : Closed e := HasType_empty_closed h
  have hf : ∀ x ∈ freeVars e, x ∉ parameters e := by
    intro x hx
    rw [hc] at hx
    simp at hx
  exact ⟨hc, t,
    (Infer_ok_iff_HasType_of_noShadowing e Context.empty Context.empty hs hf
      (fun _ _ => rfl) t).2 h,
    (typesEqual_iff_eq t t).2 rfl, rfl⟩

/-- Witness: `(λx:Int. x) ((λx:Int. x) 5)`, whose two abstractions bind the same name side by
side, meets the hypotheses of the completeness statement and `Infer` gives it `Int`. -/
theorem Infer_complete_witness :
    Closed siblingReuse ∧ ∃ t' : Ty, (Infer Context.empty siblingReuse).1 = .ok t' ∧
      typesEqual t' .TInt = true ∧ t' = .TInt :=
  Infer_complete siblingReuse .TInt (by decide) ((HasType_iff_typeOf _ _ _).2 (by decide))

/-! ## Typed evaluation -/

/-- Typing helper: a typing stays valid in every context that extends the given one. -/
theorem HasType_weaken {Γ : Context Ty} {e : Expression} {t : Ty} (h : HasType Γ e t) :
    ∀ Γ1 : Context Ty, (∀ x T, Γ x = some T → Γ1 x = some T) → HasType Γ1 e t := by
  induction h with
  | int Γ n => intro Γ1 _; exact .int Γ1 n
  | var Γ x T hx => intro Γ1 hsub; exact .var Γ1 x T (hsub x T hx)
  | abs Γ p T U b _ ih =>
    intro Γ1 hsub
    refine .abs Γ1 p T U b (ih _ ?_)
    intro x S hx
    by_cases hxp : x = p
    · simpa [Context.set, hxp] using hx
    · simp only [Context.set, hxp, if_false] at hx ⊢
      exact hsub x S hx
  | app Γ f a T U _ _ ihf iha =>
    intro Γ1 hsub
    exact .app Γ1 f a T U (ihf Γ1 hsub) (iha Γ1 hsub)

/-- Context helper: re-binding a name to the value it already has changes nothing. -/
theorem Context.set_eq_self {α : Type} (context : Context α) (key : String) (value : α)
    (h : context key = some value) : context.set key value = context := by
  funext k
  by_cases hk : k = key
  · simp [Context.set, hk, h]
  · simp [Context.set, hk]

/-- Declaration helper: the names of the declarations are the parameter names. -/
theorem parameterTypes_fst (e : Expression) :
    (parameterTypes e).map Prod.fst = parameters e := by
  induction e with
  | EInt n => rfl
  | EVariable x => rfl
  | EAbstraction p T b ih => simp [parameterTypes, parameters, ih]
  | EApplication f a ihf iha => simp [parameterTypes, parameters, ihf, iha]

/-- Declaration helper: among declarations with distinct names, each name is looked up to its
own type. -/
theorem declaredIn_of_mem (l : List (String × Ty)) (hnd : (l.map Prod.fst).Nodup) :
    ∀ pT ∈ l, declaredIn l pT.1 = some pT.2 := by
  induction l with
  | nil => intro pT h; simp at h
  | cons q rest ih =>
    obtain ⟨q1, q2⟩ := q
    simp only [List.map_cons, List.nodup_cons, List.mem_map, not_exists, not_and] at hnd
    intro pT hmem
    simp only [List.mem_cons] at hmem
    rcases hmem with rfl | hmem
    · simp [declaredIn]
    · have hne : pT.1 ≠ q1 := fun heq => hnd.1 pT hmem heq
      simp only [declaredIn, hne, if_false]
      exact ih hnd.2 pT hmem

/-- Declaration helper: an expression with pairwise distinct parameter names declares the
types that its own declarations give. -/
theorem Declares_declaredIn (e : Expression) (hd : DistinctParameters e) :
    Declares (declaredIn (parameterTypes e)) e := by
  unfold DistinctParameters at hd
  rw [← parameterTypes_fst] at hd
  exact declaredIn_of_mem _ hd

/-- Value-typing helper: a value keeps its type when the heap gains bindings. -/
theorem ValueHasType_mono {Δ : Context Ty} {heap heap1 : Heap} {v : Value} {t : Ty}
    (h : ValueHasType Δ heap v t) (hle : heap.BoundLE heap1) : ValueHasType Δ heap1 v t := by
  cases v with
  | VInt n =>
    cases t with
    | TInt => simp [ValueHasType]
    | TArrow T U => simp [ValueHasType] at h
  | VClosure c p b =>
    cases t with
    | TInt => simp [ValueHasType] at h
    | TArrow T U =>
      simp only [ValueHasType] at h ⊢
      exact ⟨h.1, h.2.1, h.2.2.1, fun x hx hxp => hle c x (h.2.2.2 x hx hxp)⟩
  | VNative fn => simp [ValueHasType] at h
  | VNil => simp [ValueHasType] at h
  | VError err => simp [ValueHasType] at h

/-- Heap helper: an assignment keeps every binding bound. -/
theorem Heap.boundLE_set (heap : Heap) (context : Nat) (key : String) (value : Value) :
    heap.BoundLE (heap.set context key value) := by
  intro c x hx
  unfold Heap.set Context.set
  by_cases hc : c = context
  · by_cases hk : x = key
    · simp [hc, hk]
    · subst hc; simpa [hk] using hx
  · simpa [hc] using hx

/-- Heap helper: binding a name to a value of its declared type keeps the store typed. -/
theorem StoreTyped_set {Δ : Context Ty} {heap : Heap} (hst : StoreTyped Δ heap) (context : Nat)
    (key : String) (value : Value) (T : Ty) (hT : Δ key = some T)
    (hv : ValueHasType Δ heap value T) : StoreTyped Δ (heap.set context key value) := by
  intro c x v hx
  have hle := Heap.boundLE_set heap context key value
  by_cases hc : c = context
  · by_cases hk : x = key
    · simp only [Heap.set, Context.set, hc, hk, if_true, Option.some.injEq] at hx
      subst hx
      exact ⟨T, hk ▸ hT, ValueHasType_mono hv hle⟩
    · simp only [Heap.set, Context.set, hc, hk, if_true, if_false] at hx
      obtain ⟨S, hS, hvS⟩ := hst context x v hx
      exact ⟨S, hS, ValueHasType_mono hvS hle⟩
  · simp only [Heap.set, hc, if_false] at hx
    obtain ⟨S, hS, hvS⟩ := hst c x v hx
    exact ⟨S, hS, ValueHasType_mono hvS hle⟩

/-- Evaluation helper (type preservation): on a typed store, with every free variable of the
expression bound in the current map, a result of `Interpret` on an expression typed under the
declared types `Δ` has a `nil` error and a value of that type, and the store stays typed and
keeps its bindings. -/
theorem Interpret_preserves (natives : Nat → Native) (Δ : Context Ty) :
    ∀ (fuel : Nat) (heap : Heap) (context : Nat) (e : Expression) (t : Ty)
      (r : Value × Option Error) (heap1 : Heap),
      StoreTyped Δ heap → Declares Δ e → HasType Δ e t →
      (∀ x ∈ freeVars e, heap context x ≠ none) →
      Interpret natives fuel heap context e = some (r, heap1) →
      r.2 = none ∧ ValueHasType Δ heap1 r.1 t ∧ StoreTyped Δ heap1 ∧ heap.BoundLE heap1 := by
  intro fuel
  induction fuel with
  | zero =>
    intro heap context e t r heap1 _ _ _ _ hrun
    simp [Interpret] at hrun
  | succ fuel ih =>
    intro heap context e t r heap1 hst hdec hty hfv hrun
    cases e with
    | EInt n =>
      rw [HasType_EInt_iff] at hty
      simp only [Interpret, Option.some.injEq, Prod.mk.injEq] at hrun
      obtain ⟨rfl, rfl⟩ := hrun
      subst hty
      exact ⟨rfl, by simp [ValueHasType], hst, fun _ _ h => h⟩
    | EVariable x =>
      rw [HasType_EVariable_iff] at hty
      simp only [Interpret, Option.some.injEq, Prod.mk.injEq] at hrun
      obtain ⟨rfl, rfl⟩ := hrun
      have hb := hfv x (by simp [freeVars])
      cases hx : heap context x with
      | none => exact absurd hx hb
      | some v =>
        obtain ⟨S, hS, hvS⟩ := hst context x v hx
        rw [hty] at hS
        cases hS
        exact ⟨rfl, by simpa [Context.get, hx] using hvS, hst, fun _ _ h => h⟩
    | EAbstraction p T b =>
      rw [HasType_EAbstraction_iff] at hty
      obtain ⟨U, rfl, hb⟩ := hty
      simp only [Interpret, Option.some.injEq, Prod.mk.injEq] at hrun
      obtain ⟨rfl, rfl⟩ := hrun
      have hp : Δ p = some T := hdec (p, T) (by simp [parameterTypes])
      rw [Context.set_eq_self Δ p T hp] at hb
      refine ⟨rfl, ?_, hst, fun _ _ h => h⟩
      simp only [ValueHasType]
      refine ⟨hp, fun pT h => hdec pT (by simp [parameterTypes, h]), hb, ?_⟩
      intro x hx hxp
      exact hfv x (by simp [freeVars, hx, hxp])
    | EApplication f a =>
      rw [HasType_EApplication_iff] at hty
      obtain ⟨T, htf, hta⟩ := hty
      have hdf : Declares Δ f := fun pT h => hdec pT (by simp [parameterTypes, h])
      have hda : Declares Δ a := fun pT h => hdec pT (by simp [parameterTypes, h])
      rw [Interpret] at hrun
      cases ha : Interpret natives fuel heap context a with
      | none => simp [ha] at hrun
      | some ra =>
        obtain ⟨⟨argument, erra⟩, heapA⟩ := ra
        obtain ⟨hea, hva, hsa, hla⟩ := ih heap context a T _ _ hst hda hta
          (fun x hx => hfv x (by simp [freeVars, hx])) ha
        simp only at hea
        subst hea
        simp only [ha] at hrun
        cases hf : Interpret natives fuel heapA context f with
        | none => simp [hf] at hrun
        | some rf =>
          obtain ⟨⟨function, errf⟩, heapF⟩ := rf
          obtain ⟨hef, hvf, hsf, hlf⟩ := ih heapA context f (.TArrow T t) _ _ hsa hdf htf
            (fun x hx => hla context x (hfv x (by simp [freeVars, hx]))) hf
          simp only at hef
          subst hef
          simp only [hf] at hrun
          cases function with
          | VClosure c p b =>
            simp only [ValueHasType] at hvf
            obtain ⟨hp, hdb, htb, hfb⟩ := hvf
            simp only at hrun
            have hle3 := Heap.boundLE_set heapF c p argument
            have hst3 : StoreTyped Δ (heapF.set c p argument) :=
              StoreTyped_set hsf c p argument T hp (ValueHasType_mono hva hlf)
            have hfv3 : ∀ x ∈ freeVars b, (heapF.set c p argument) c x ≠ none := by
              intro x hx
              by_cases hxp : x = p
              · simp [Heap.set, Context.set, hxp]
              · exact hle3 c x (hfb x hx hxp)
            obtain ⟨her, hvr, hsr, hlr⟩ := ih _ c b t r heap1 hst3 hdb htb hfv3 hrun
            exact ⟨her, hvr, hsr,
              fun c0 x h => hlr c0 x (hle3 c0 x (hlf c0 x (hla c0 x h)))⟩
          | VInt n => simp [ValueHasType] at hvf
          | VNative fn => simp [ValueHasType] at hvf
          | VNil => simp [ValueHasType] at hvf
          | VError err => simp [ValueHasType] at hvf

/-! ## Evaluator -/

/-- Claim C10: evaluation at the failing input: on every environment, `Interpret` of
`Application(IntLiteral(1), IntLiteral(2))` returns the error object in the value position
together with a `nil` error, and leaves the heap as it was. -/
theorem Interpret_apply_non_function (natives : Nat → Native) (fuel : Nat) (heap : Heap)
    (context : Nat) :
    Interpret natives (fuel + 2) heap context (.EApplication (.EInt 1) (.EInt 2))
      = some ((.VError .ErrTypeError, none), heap) := rfl

/-- Evaluation helper: a typed value is a proper value of the shape its type prescribes. -/
theorem ValueHasType_shape {Δ : Context Ty} {heap : Heap} {v : Value} {t : Ty}
    (h : ValueHasType Δ heap v t) :
    v.isProper = true ∧ (t = .TInt → ∃ n : Int, v = .VInt n) ∧
      (∀ T U : Ty, t = .TArrow T U → ∃ c p b, v = .VClosure c p b) := by
  cases v with
  | VInt n =>
    cases t with
    | TInt =>
      refine ⟨rfl, fun _ => ⟨n, rfl⟩, ?_⟩
      intro T U hTU
      cases hTU
    | TArrow T U => simp [ValueHasType] at h
  | VClosure c p b =>
    cases t with
    | TInt => simp [ValueHasType] at h
    | TArrow T U =>
      refine ⟨rfl, ?_, fun _ _ _ => ⟨c, p, b, rfl⟩⟩
      intro hTU
      cases hTU
  | VNative fn => simp [ValueHasType] at h
  | VNil => simp [ValueHasType] at h
  | VError err => simp [ValueHasType] at h

/-- Evaluation helper: the loop of `knot`. Once `f` is bound to the closure of `λx. f x` and
`x` to `1` in the map behind reference `0`, evaluating `f x` there exhausts every fuel. -/
theorem Interpret_knotBody (natives : Nat → Native) :
    ∀ (fuel : Nat) (heap : Heap), heap 0 "f" = some (.VClosure 0 "x" knotBody) →
      heap 0 "x" = some (.VInt 1) → Interpret natives fuel heap 0 knotBody = none := by
  intro fuel
  induction fuel with
  | zero => intro heap _ _; rfl
  | succ fuel ih =>
    intro heap hf hx
    cases fuel with
    | zero => rfl
    | succ fuel =>
      have hset : heap.set 0 "x" (.VInt 1) = heap := by
        funext c
        by_cases hc : c = 0
        · subst hc
          simp only [Heap.set, if_true]
          exact Context.set_eq_self (heap 0) "x" (.VInt 1) hx
        · simp [Heap.set, hc]
      have hloop := ih heap hf hx
      simp only [knotBody, Interpret, Context.get, hf, hx, Option.getD_some] at hloop ⊢
      rw [hset]
      exact hloop

/-- Claim C1, counterexample: three expressions that `Infer` accepts on the empty context with
type `Int`. `(λf:Int. f) f` evaluates to the missing-value marker `nil`; the closed
`(λx:Int. (λx:Int→Int. x 1) x) 5` evaluates to the type-error object; the closed `knot`, whose
parameter names are pairwise distinct, yields no value at all, whatever the fuel. -/
theorem Infer_Interpret_safe_counterexample :
    ((Infer Context.empty leakExample).1 = .ok .TInt ∧
      ∀ (natives : Nat → Native) (fuel : Nat),
        (fuel < 2 → Interpret natives fuel Heap.empty 0 leakExample = none) ∧
        (Interpret natives (fuel + 2) Heap.empty 0 leakExample).map Prod.fst
          = some (.VNil, none)) ∧
    (Closed shadowStuck ∧ (Infer Context.empty shadowStuck).1 = .ok .TInt ∧
      ∀ (natives : Nat → Native) (fuel : Nat),
        (fuel < 4 → Interpret natives fuel Heap.empty 0 shadowStuck = none) ∧
        (Interpret natives (fuel + 4) Heap.empty 0 shadowStuck).map Prod.fst
          = some (.VError .ErrTypeError, none)) ∧
    (Closed knot ∧ DistinctParameters knot ∧ (Infer Context.empty knot).1 = .ok .TInt ∧
      ∀ (natives : Nat → Native) (fuel : Nat),
        Interpret natives fuel Heap.empty 0 knot = none) := by
  refine ⟨⟨by decide, ?_⟩, ⟨?_, by decide, ?_⟩, ?_, ?_, by decide, ?_⟩
  · intro natives fuel
    refine ⟨?_, rfl⟩
    intro h
    rcases fuel with _ | _ | fuel
    · rfl
    · rfl
    · omega
  · unfold Closed; decide
  · intro natives fuel
    refine ⟨?_, rfl⟩
    intro h
    rcases fuel with _ | _ | _ | _ | fuel
    · rfl
    · rfl
    · rfl
    · rfl
    · omega
  · unfold Closed; decide
  · unfold DistinctParameters; decide
  · intro natives fuel
    rcases fuel with _ | _ | _ | _ | _ | fuel
    · rfl
    · rfl
    · rfl
    · rfl
    · rfl
    · exact Interpret_knotBody natives (fuel + 3) knotHeap rfl rfl

/-- Claim C1, amended: when the parameter names of `e` are pairwise distinct and none of them
occurs free in `e`, and `Infer` on the empty context succeeds with `t`, then every result that
`Interpret` returns for `e` on the empty environment has a `nil` error and a proper value,
never `nil` and never the type-error object: an `IntValue` when `t` is `Int`, a `Closure` when
`t` is an arrow type. -/
theorem Infer_Interpret_safe (natives : Nat → Native) (e : Expression) (t : Ty)
    (hd : DistinctParameters e) (hf : ∀ x ∈ freeVars e, x ∉ parameters e)
    (hi : (Infer Context.empty e).1 = .ok t)
    (fuel : Nat) (r : Value × Option Error) (heap1 : Heap)
    (hrun : Interpret natives fuel Heap.empty 0 e = some (r, heap1)) :
    r.2 = none ∧ r.1.isProper = true ∧ r.1 ≠ .VNil ∧ (∀ err : Error, r.1 ≠ .VError err) ∧
      (t = .TInt → ∃ n : Int, r.1 = .VInt n) ∧
      (∀ T U : Ty, t = .TArrow T U → ∃ c p b, r.1 = .VClosure c p b) := by
  have hty : HasType Context.empty e t :=
    (Infer_ok_iff_HasType e Context.empty Context.empty hd hf (fun _ _ => rfl) t).1 hi
  have hc : Closed e := HasType_empty_closed hty
  have htΔ : HasType (declaredIn (parameterTypes e)) e t :=
    HasType_weaken hty _ (fun x T hx => by simp [Context.empty] at hx)
  have hst : StoreTyped (declaredIn (parameterTypes e)) Heap.empty := by
    intro c x v hx
    simp [Heap.empty, Context.empty] at hx
  have hfv : ∀ x ∈ freeVars e, Heap.empty 0 x ≠ none := by
    intro x hx
    rw [hc] at hx
    simp at hx
  obtain ⟨her, hvr, _, _⟩ := Interpret_preserves natives (declaredIn (parameterTypes e)) fuel
    Heap.empty 0 e t r heap1 hst (Declares_declaredIn e hd) htΔ hfv hrun
  obtain ⟨hp, hint, harr⟩ := ValueHasType_shape hvr
  refine ⟨her, hp, ?_, ?_, hint, harr⟩
  · intro h; rw [h] at hp; simp [Value.isProper] at hp
  · intro err h; rw [h] at hp; simp [Value.isProper] at hp

/-- Witness: the identity on `Int` applied to `5` meets the hypotheses of the safety statement
and evaluates, with two units of fuel, to `IntValue(5)`. -/
theorem Infer_Interpret_safe_witness :
    Interpret identityNatives 2 Heap.empty 0 identityApplied
        = some ((.VInt 5, none), Heap.empty.set 0 "a" (.VInt 5)) ∧
    ((Value.VInt 5, (none : Option Error)).2 = none ∧ (Value.VInt 5).isProper = true ∧
      Value.VInt 5 ≠ .VNil ∧ (∀ err : Error, Value.VInt 5 ≠ .VError err) ∧
      (Ty.TInt = .TInt → ∃ n : Int, Value.VInt 5 = .VInt n) ∧
      (∀ T U : Ty, Ty.TInt = .TArrow T U → ∃ c p b, Value.VInt 5 = .VClosure c p b)) :=
  ⟨rfl, Infer_Interpret_safe identityNatives identityApplied .TInt
    (by unfold DistinctParameters; decide) (by decide) (by decide) 2 (.VInt 5, none)
    (Heap.empty.set 0 "a" (.VInt 5)) rfl⟩

/-! ## Evaluator: case by case -/

/-- Claim C16: on an integer literal `Interpret` succeeds with the `IntValue` of the same
integer and a `nil` error, on every environment, and leaves the heap as it was; `IntLiteral(7)`
on the empty environment gives `IntValue(7)`. -/
theorem Interpret_EInt (natives : Nat → Native) (fuel : Nat) (heap : Heap) (context : Nat)
    (v : Int) :
    Interpret natives (fuel + 1) heap context (.EInt v) = some ((.VInt v, none), heap) ∧
    Interpret natives (fuel + 1) Heap.empty 0 (.EInt 7) = some ((.VInt 7, none), Heap.empty) :=
  ⟨rfl, rfl⟩

/-- Claim C12: on a variable `Interpret` never fails: it returns, with a `nil` error, the value
bound to the name when the name is bound and Go's `nil` when it is not, and it leaves the heap as
it was. -/
theorem Interpret_EVariable (natives : Nat → Native) (fuel : Nat) (heap : Heap) (context : Nat)
    (x : String) :
    (∀ v : Value, heap context x = some v →
      Interpret natives (fuel + 1) heap context (.EVariable x) = some ((v, none), heap)) ∧
    (heap context x = none →
      Interpret natives (fuel + 1) heap context (.EVariable x) = some ((.VNil, none), heap)) := by
  constructor
  · intro v hv
    simp [Interpret, Context.get, hv]
  · intro hv
    simp [Interpret, Context.get, hv]

/-- Claim C15: a single call of the identity closure returns its argument: on every environment,
for every parameter name, declared type and integer `n`, `Interpret` of
`Application(Abstraction(p, T, Variable(p)), IntLiteral(n))` succeeds with `IntValue(n)` and a
`nil` error; with `p = "a"`, `T = Int`, `n = 3` on the empty environment it gives
`IntValue(3)`. -/
theorem Interpret_identity_call (natives : Nat → Native) (fuel : Nat) (heap : Heap)
    (context : Nat) (p : String) (T : Ty) (n : Int) :
    (Interpret natives (fuel + 2) heap context
        (.EApplication (.EAbstraction p T (.EVariable p)) (.EInt n))).map Prod.fst
      = some (.VInt n, none) ∧
    (Interpret natives (fuel + 2) Heap.empty 0
        (.EApplication (.EAbstraction "a" .TInt (.EVariable "a")) (.EInt 3))).map Prod.fst
      = some (.VInt 3, none) := by
  refine ⟨?_, rfl⟩
  simp [Interpret, Context.get, Heap.set, Context.set]

/-- Claim C17: a closure call binds in place and does not restore. After `Interpret` of
`Application(Abstraction(p, T, Variable(p)), IntLiteral(n))` the caller's map holds
`IntValue(n)` at `p`, whatever it held before, every other binding of it and every other map
is as before, and the result is that of evaluating the body `Variable(p)` on that same map. -/
theorem Interpret_identity_call_binds (natives : Nat → Native) (fuel : Nat) (heap : Heap)
    (context : Nat) (p : String) (T : Ty) (n : Int) :
    Interpret natives (fuel + 2) heap context
        (.EApplication (.EAbstraction p T (.EVariable p)) (.EInt n))
      = some ((.VInt n, none), heap.set context p (.VInt n)) ∧
    (heap.set context p (.VInt n)) context p = some (.VInt n) ∧
    (∀ x : String, x ≠ p → (heap.set context p (.VInt n)) context x = heap context x) ∧
    (∀ c : Nat, c ≠ context → (heap.set context p (.VInt n)) c = heap c) ∧
    Interpret natives (fuel + 2) heap context
        (.EApplication (.EAbstraction p T (.EVariable p)) (.EInt n))
      = Interpret natives (fuel + 1) (heap.set context p (.VInt n)) context (.EVariable p) := by
  refine ⟨?_, ?_, ?_, ?_, rfl⟩
  · simp [Interpret, Context.get, Heap.set, Context.set]
  · simp [Heap.set, Context.set]
  · intro x hx
    simp [Heap.set, Context.set, hx]
  · intro c hc
    simp [Heap.set, hc]

/-- Claim C11: evaluation at the failing input: the argument `1 2` of `(λa:Int. 0) (1 2)`
evaluates to the type-error object with a `nil` error, and the whole expression then evaluates
to `IntValue(0)` with a `nil` error, after binding `a` to the error object. -/
theorem Interpret_error_not_propagated (natives : Nat → Native) (fuel : Nat) :
    Interpret natives (fuel + 2) Heap.empty 0 (.EApplication (.EInt 1) (.EInt 2))
      = some ((.VError .ErrTypeError, none), Heap.empty) ∧
    Interpret natives (fuel + 3) Heap.empty 0 propagationExample
      = some ((.VInt 0, none), Heap.empty.set 0 "a" (.VError .ErrTypeError)) :=
  ⟨rfl, rfl⟩

/-- Evaluation helper: `Interpret` never returns a non-`nil` error. -/
theorem Interpret_snd_none (natives : Nat → Native) :
    ∀ (fuel : Nat) (heap : Heap) (context : Nat) (e : Expression)
      (r : Value × Option Error) (heap1 : Heap),
      Interpret natives fuel heap context e = some (r, heap1) → r.2 = none := by
  intro fuel
  induction fuel with
  | zero =>
    intro heap context e r heap1 hrun
    simp [Interpret] at hrun
  | succ fuel ih =>
    intro heap context e r heap1 hrun
    cases e with
    | EInt n =>
      simp only [Interpret, Option.some.injEq, Prod.mk.injEq] at hrun
      rw [← hrun.1]
    | EVariable x =>
      simp only [Interpret, Option.some.injEq, Prod.mk.injEq] at hrun
      rw [← hrun.1]
    | EAbstraction p T b =>
      simp only [Interpret, Option.some.injEq, Prod.mk.injEq] at hrun
      rw [← hrun.1]
    | EApplication f a =>
      rw [Interpret] at hrun
      cases ha : Interpret natives fuel heap context a with
      | none => simp [ha] at hrun
      | some ra =>
        obtain ⟨⟨argument, erra⟩, heapA⟩ := ra
        have hea : erra = none := ih heap context a _ _ ha
        subst hea
        simp only [ha] at hrun
        cases hf : Interpret natives fuel heapA context f with
        | none => simp [hf] at hrun
        | some rf =>
          obtain ⟨⟨function, errf⟩, heapF⟩ := rf
          have hef : errf = none := ih heapA context f _ _ hf
          subst hef
          simp only [hf] at hrun
          cases function with
          | VClosure c p b => exact ih _ c b r heap1 hrun
          | VNative fn =>
            simp only [Option.some.injEq, Prod.mk.injEq] at hrun
            rw [← hrun.1]
          | VInt n =>
            simp only [Option.some.injEq, Prod.mk.injEq] at hrun
            rw [← hrun.1]
          | VNil =>
            simp only [Option.some.injEq, Prod.mk.injEq] at hrun
            rw [← hrun.1]
          | VError err =>
            simp only [Option.some.injEq, Prod.mk.injEq] at hrun
            rw [← hrun.1]

/-- Claim C19: `Interpret` never returns a non-`nil` error: whenever it returns, the error
component of the result is `nil`. Applying a non-function is reported by the type-error object
in the value position, together with a `nil` error. -/
theorem Interpret_error_always_nil (natives : Nat → Native) (fuel : Nat) (heap : Heap)
    (context : Nat) (e : Expression) (r : Value × Option Error) (heap1 : Heap)
    (hrun : Interpret natives fuel heap context e = some (r, heap1)) :
    r.2 = none ∧
    ∀ (fuel1 : Nat) (m n : Int),
      Interpret natives (fuel1 + 2) heap context (.EApplication (.EInt m) (.EInt n))
        = some ((.VError .ErrTypeError, none), heap) :=
  ⟨Interpret_snd_none natives fuel heap context e r heap1 hrun, fun _ _ _ => rfl⟩

/-- Witness: the run of `1 2` on the empty environment returns, and its error component is
`nil`. -/
theorem Interpret_error_always_nil_witness :
    (Value.VError Error.ErrTypeError, (none : Option Error)).2 = none ∧
    ∀ (fuel1 : Nat) (m n : Int),
      Interpret identityNatives (fuel1 + 2) Heap.empty 0 (.EApplication (.EInt m) (.EInt n))
        = some ((.VError .ErrTypeError, none), Heap.empty) :=
  Interpret_error_always_nil identityNatives 2 Heap.empty 0
    (.EApplication (.EInt 1) (.EInt 2)) (.VError .ErrTypeError, none) Heap.empty rfl

/-- Claim C13: order of evaluation. `Interpret` on an application evaluates the argument first,
on the given heap, and then the function, on the heap the argument leaves; with the two values
it calls the closure (after binding its parameter in the captured map), calls the host function,
or returns the type-error object. On the empty environment `((λx. x) (λz. z)) x` so yields
`nil`, whereas evaluating the function first yields the closure of `λz. z`. -/
theorem Interpret_EApplication_order (natives : Nat → Native) (fuel : Nat) (heap : Heap)
    (context : Nat) (f a : Expression) (argument function : Value) (heap1 heap2 : Heap)
    (ha : Interpret natives fuel heap context a = some ((argument, none), heap1))
    (hf : Interpret natives fuel heap1 context f = some ((function, none), heap2)) :
    Interpret natives (fuel + 1) heap context (.EApplication f a)
      = (match function with
        | .VClosure closureContext Parameter Body =>
          Interpret natives fuel (heap2.set closureContext Parameter argument) closureContext Body
        | .VNative fn => some (((natives fn argument heap2).1, none), (natives fn argument heap2).2)
        | _ => some ((.VError .ErrTypeError, none), heap2)) ∧
    (∀ fuel1 : Nat,
      (Interpret natives (fuel1 + 4) Heap.empty 0 orderExample).map Prod.fst
        = some (.VNil, none) ∧
      (InterpretFunctionFirst natives (fuel1 + 4) Heap.empty 0 orderExample).map Prod.fst
        = some (.VClosure 0 "z" (.EVariable "z"), none)) := by
  refine ⟨?_, fun _ => ⟨rfl, rfl⟩⟩
  rw [Interpret]
  simp only [ha, hf]
  cases function <;> rfl

/-- Witness: with three units of fuel for the parts of `((λx. x) (λz. z)) x`, the argument `x`
evaluates to `nil` on the empty heap, the function to the closure of `λz. z` after binding `x`,
and the application binds `z` to `nil` and returns `nil`. -/
theorem Interpret_EApplication_order_witness :
    Interpret identityNatives (3 + 1) Heap.empty 0 orderExample
      = some ((.VNil, none),
          (Heap.empty.set 0 "x" (.VClosure 0 "z" (.EVariable "z"))).set 0 "z" .VNil) ∧
    (∀ fuel1 : Nat,
      (Interpret identityNatives (fuel1 + 4) Heap.empty 0 orderExample).map Prod.fst
        = some (.VNil, none) ∧
      (InterpretFunctionFirst identityNatives (fuel1 + 4) Heap.empty 0 orderExample).map Prod.fst
        = some (.VClosure 0 "z" (.EVariable "z"), none)) :=
  Interpret_EApplication_order identityNatives 3 Heap.empty 0
    (.EApplication (.EAbstraction "x" (.TArrow .TInt .TInt) (.EVariable "x"))
      (.EAbstraction "z" .TInt (.EVariable "z")))
    (.EVariable "x") .VNil (.VClosure 0 "z" (.EVariable "z")) Heap.empty
    (Heap.empty.set 0 "x" (.VClosure 0 "z" (.EVariable "z"))) rfl rfl

/-! ## Type checker: effect on the context -/

/-- Checker helper: a name that is bound before `Infer` runs is bound afterwards. -/
theorem Infer_bound_mono (e : Expression) :
    ∀ (context : Context Ty) (x : String), context x ≠ none → (Infer context e).2 x ≠ none := by
  induction e with
  | EInt n => intro context x hx; exact hx
  | EVariable y =>
    intro context x hx
    unfold Infer
    cases context y <;> exact hx
  | EAbstraction p T b ih =>
    intro context x hx
    rw [Infer_abs_snd]
    apply ih
    by_cases hxp : x = p
    · simp [Context.set, hxp]
    · simpa [Context.set, hxp] using hx
  | EApplication f a ihf iha =>
    intro context x hx
    rcases Infer_app_snd context f a with h | h
    · rw [h]; exact ihf context x hx
    · rw [h]; exact iha _ x (ihf context x hx)

/-- Claim C18: `Infer` only adds or overwrites bindings of the caller's context: every name
bound before the call is bound after it; after `Infer` on `Abstraction(p, T, b)`, whether it
succeeded or failed, `p` is bound, and it is bound to `T` when no abstraction inside `b` binds
`p` again. -/
theorem Infer_keeps_bindings (context : Context Ty) (e : Expression) (p : String) (T : Ty)
    (b : Expression) :
    (∀ x : String, context x ≠ none → (Infer context e).2 x ≠ none) ∧
    (Infer context (.EAbstraction p T b)).2 p ≠ none ∧
    (p ∉ parameters b → (Infer context (.EAbstraction p T b)).2 p = some T) := by
  refine ⟨Infer_bound_mono e context, ?_, ?_⟩
  · rw [Infer_abs_snd]
    apply Infer_bound_mono
    simp [Context.set]
  · intro hp
    rw [Infer_abs_snd, Infer_frame b _ p hp]
    simp [Context.set]

/-- Witness: on a context that binds `a` to `Int → Int`, `Infer` of `λa:Int. b`, which fails
because `b` is unbound, leaves `a` bound to `Int`. -/
theorem Infer_keeps_bindings_witness :
    (Infer ((Context.empty : Context Ty).set "a" (.TArrow .TInt .TInt))
        (.EAbstraction "a" .TInt (.EVariable "b"))).1 = .error .ErrTypeError ∧
    (Infer ((Context.empty : Context Ty).set "a" (.TArrow .TInt .TInt))
        (.EAbstraction "a" .TInt (.EVariable "b"))).2 "a" = some .TInt :=
  ⟨by decide,
    (Infer_keeps_bindings ((Context.empty : Context Ty).set "a" (.TArrow .TInt .TInt))
      (.EInt 0) "a" .TInt (.EVariable "b")).2.2 (by decide)⟩

/-! ## The shared store -/

/-- Evaluation helper: when every value bound in the current map is no host function and
captures, if a closure, that same map, then so does the value `Interpret` returns and so does
every value bound in that map afterwards, and no other map is written. -/
theorem Interpret_one_store (natives : Nat → Native) (c0 : Nat) :
    ∀ (fuel : Nat) (heap : Heap) (e : Expression) (r : Value × Option Error) (heap1 : Heap),
      (∀ x v, heap c0 x = some v → v.CapturesOnly c0) →
      Interpret natives fuel heap c0 e = some (r, heap1) →
      r.1.CapturesOnly c0 ∧ (∀ x v, heap1 c0 x = some v → v.CapturesOnly c0) ∧
        (∀ c : Nat, c ≠ c0 → heap1 c = heap c) := by
  intro fuel
  induction fuel with
  | zero =>
    intro heap e r heap1 _ hrun
    simp [Interpret] at hrun
  | succ fuel ih =>
    intro heap e r heap1 hinv hrun
    cases e with
    | EInt n =>
      simp only [Interpret, Option.some.injEq, Prod.mk.injEq] at hrun
      obtain ⟨rfl, rfl⟩ := hrun
      exact ⟨by simp [Value.CapturesOnly], hinv, fun _ _ => rfl⟩
    | EVariable x =>
      simp only [Interpret, Option.some.injEq, Prod.mk.injEq] at hrun
      obtain ⟨rfl, rfl⟩ := hrun
      refine ⟨?_, hinv, fun _ _ => rfl⟩
      cases hx : heap c0 x with
      | none => simp [Context.get, hx, Value.CapturesOnly]
      | some v => simpa [Context.get, hx] using hinv x v hx
    | EAbstraction p T b =>
      simp only [Interpret, Option.some.injEq, Prod.mk.injEq] at hrun
      obtain ⟨rfl, rfl⟩ := hrun
      exact ⟨by simp [Value.CapturesOnly], hinv, fun _ _ => rfl⟩
    | EApplication f a =>
      rw [Interpret] at hrun
      cases ha : Interpret natives fuel heap c0 a with
      | none => simp [ha] at hrun
      | some ra =>
        obtain ⟨⟨argument, erra⟩, heapA⟩ := ra
        have hea : erra = none := Interpret_snd_none natives fuel heap c0 a _ _ ha
        subst hea
        obtain ⟨hva, hia, hoa⟩ := ih heap a _ _ hinv ha
        simp only [ha] at hrun
        cases hf : Interpret natives fuel heapA c0 f with
        | none => simp [hf] at hrun
        | some rf =>
          obtain ⟨⟨function, errf⟩, heapF⟩ := rf
          have hef : errf = none := Interpret_snd_none natives fuel heapA c0 f _ _ hf
          subst hef
          obtain ⟨hvf, hif, hof⟩ := ih heapA f _ _ hia hf
          simp only [hf] at hrun
          cases function with
          | VClosure c p b =>
            simp only [Value.CapturesOnly] at hvf
            subst hvf
            simp only at hrun
            have hinv3 : ∀ x v, (heapF.set c p argument) c x = some v → v.CapturesOnly c := by
              intro x v hx
              by_cases hxp : x = p
              · simp only [Heap.set, Context.set, hxp, if_true, Option.some.injEq] at hx
                subst hx
                exact hva
              · simp only [Heap.set, Context.set, hxp, if_true, if_false] at hx
                exact hif x v hx
            obtain ⟨hvr, hir, hor⟩ := ih _ b r heap1 hinv3 hrun
            refine ⟨hvr, hir, ?_⟩
            intro c1 hc1
            rw [hor c1 hc1, ← hoa c1 hc1, ← hof c1 hc1]
            simp [Heap.set, hc1]
          | VNative fn => simp [Value.CapturesOnly] at hvf
          | VInt n =>
            simp only [Option.some.injEq, Prod.mk.injEq] at hrun
            obtain ⟨rfl, rfl⟩ := hrun
            exact ⟨by simp [Value.CapturesOnly], hif, fun c1 hc1 => by rw [hof c1 hc1, hoa c1 hc1]⟩
          | VNil =>
            simp only [Option.some.injEq, Prod.mk.injEq] at hrun
            obtain ⟨rfl, rfl⟩ := hrun
            exact ⟨by simp [Value.CapturesOnly], hif, fun c1 hc1 => by rw [hof c1 hc1, hoa c1 hc1]⟩
          | VError err =>
            simp only [Option.some.injEq, Prod.mk.injEq] at hrun
            obtain ⟨rfl, rfl⟩ := hrun
            exact ⟨by simp [Value.CapturesOnly], hif, fun c1 hc1 => by rw [hof c1 hc1, hoa c1 hc1]⟩

/-- Claim C20: single shared environment. When `Interpret` starts on a map whose bound values
are all integers, the value it returns is no host function and, if a closure, captures that
same map; so does every value bound in that map afterwards; and no other map is written: all
bindings of the evaluation are made in the one map. A closure therefore sees a later binding of
a name: `(λk. (λx. k 0) 2) ((λx. λy. x) 1)` returns `2`, the value of `x` when the closure of
`λy. x` is called, not the `1` that `x` held when that closure was created. -/
theorem Interpret_single_store (natives : Nat → Native) (fuel : Nat) (heap : Heap) (c0 : Nat)
    (e : Expression) (r : Value × Option Error) (heap1 : Heap)
    (hint : ∀ x v, heap c0 x = some v → ∃ n : Int, v = .VInt n)
    (hrun : Interpret natives fuel heap c0 e = some (r, heap1)) :
    (∀ c p b, r.1 = .VClosure c p b → c = c0) ∧ (∀ fn, r.1 ≠ .VNative fn) ∧
    (∀ x c p b, heap1 c0 x = some (.VClosure c p b) → c = c0) ∧
    (∀ x fn, heap1 c0 x ≠ some (.VNative fn)) ∧
    (∀ c : Nat, c ≠ c0 → heap1 c = heap c) ∧
    (∀ fuel1 : Nat, (Interpret natives (fuel1 + 4) Heap.empty 0 dynamicExample).map Prod.fst
      = some (.VInt 2, none)) := by
  have hinv : ∀ x v, heap c0 x = some v → v.CapturesOnly c0 := by
    intro x v hx
    obtain ⟨n, rfl⟩ := hint x v hx
    simp [Value.CapturesOnly]
  obtain ⟨hv, hi, ho⟩ := Interpret_one_store natives c0 fuel heap e r heap1 hinv hrun
  refine ⟨?_, ?_, ?_, ?_, ho, fun _ => rfl⟩
  · intro c p b hr
    rw [hr] at hv
    exact hv
  · intro fn hr
    rw [hr] at hv
    exact hv
  · intro x c p b hx
    exact hi x _ hx
  · intro x fn hx
    exact hi x _ hx

/-- Witness: `(λx:Int. λy:Int. x) 1` on the empty environment returns a closure, which
captures the map behind reference `0`, the one the evaluation started on. -/
theorem Interpret_single_store_witness :
    (∀ c p b, (Value.VClosure 0 "y" (.EVariable "x"), (none : Option Error)).1
        = .VClosure c p b → c = 0) ∧
    (∀ fn, (Value.VClosure 0 "y" (.EVariable "x"), (none : Option Error)).1 ≠ .VNative fn) ∧
    (∀ x c p b, (Heap.empty.set 0 "x" (.VInt 1)) 0 x = some (.VClosure c p b) → c = 0) ∧
    (∀ x fn, (Heap.empty.set 0 "x" (.VInt 1)) 0 x ≠ some (.VNative fn)) ∧
    (∀ c : Nat, c ≠ 0 → (Heap.empty.set 0 "x" (.VInt 1)) c = Heap.empty c) ∧
    (∀ fuel1 : Nat,
      (Interpret identityNatives (fuel1 + 4) Heap.empty 0 dynamicExample).map Prod.fst
        = some (.VInt 2, none)) :=
  Interpret_single_store identityNatives 2 Heap.empty 0
    (.EApplication (.EAbstraction "x" .TInt (.EAbstraction "y" .TInt (.EVariable "x"))) (.EInt 1))
    (.VClosure 0 "y" (.EVariable "x"), none) (Heap.empty.set 0 "x" (.VInt 1))
    (fun x v hx => by simp [Heap.empty, Context.empty] at hx) rfl

/-! ## Termination -/

/-- Evaluation helper: more fuel does not change a result. -/
theorem Interpret_fuel_mono (natives : Nat → Native) :
    ∀ (fuel : Nat) (heap : Heap) (context : Nat) (e : Expression)
      (r : (Value × Option Error) × Heap),
      Interpret natives fuel heap context e = some r →
      ∀ fuel1 : Nat, fuel ≤ fuel1 → Interpret natives fuel1 heap context e = some r := by
  intro fuel
  induction fuel with
  | zero =>
    intro heap context e r hrun
    simp [Interpret] at hrun
  | succ fuel ih =>
    intro heap context e r hrun fuel1 hle
    obtain ⟨k, rfl⟩ : ∃ k, fuel1 = k + 1 := ⟨fuel1 - 1, by omega⟩
    have hk : fuel ≤ k := by omega
    cases e with
    | EInt n => simpa [Interpret] using hrun
    | EVariable x => simpa [Interpret] using hrun
    | EAbstraction p T b => simpa [Interpret] using hrun
    | EApplication f a =>
      rw [Interpret] at hrun ⊢
      cases ha : Interpret natives fuel heap context a with
      | none => simp [ha] at hrun
      | some ra =>
        obtain ⟨⟨argument, erra⟩, heapA⟩ := ra
        have hea : erra = none := Interpret_snd_none natives fuel heap context a _ _ ha
        subst hea
        simp only [ha] at hrun
        simp only [ih heap context a _ ha k hk]
        cases hf : Interpret natives fuel heapA context f with
        | none => simp [hf] at hrun
        | some rf =>
          obtain ⟨⟨function, errf⟩, heapF⟩ := rf
          have hef : errf = none := Interpret_snd_none natives fuel heapA context f _ _ hf
          subst hef
          simp only [hf] at hrun
          simp only [ih heapA context f _ hf k hk]
          cases function with
          | VClosure c p b => exact ih _ c b r hrun k hk
          | VNative fn => exact hrun
          | VInt n => exact hrun
          | VNil => exact hrun
          | VError err => exact hrun

/-- Evaluation helper: an expression without application is evaluated by one call, which
leaves the heap as it was. -/
theorem Interpret_applicationFree (natives : Nat → Native) (c0 : Nat) (fuel : Nat) (heap : Heap)
    (b : Expression) (hb : applicationFree b = true)
    (hinv : ∀ x v, heap c0 x = some v → v.Simple c0) :
    ∃ v : Value, Interpret natives (fuel + 1) heap c0 b = some ((v, none), heap) ∧
      v.Simple c0 := by
  cases b with
  | EInt n => exact ⟨.VInt n, rfl, by simp [Value.Simple]⟩
  | EVariable x =>
    refine ⟨(heap c0).get x, rfl, ?_⟩
    cases hx : heap c0 x with
    | none => simp [Context.get, hx, Value.Simple]
    | some v => simpa [Context.get, hx] using hinv x v hx
  | EAbstraction p T b1 =>
    refine ⟨.VClosure c0 p b1, rfl, ?_⟩
    simp only [applicationFree] at hb
    simp [Value.Simple, hb]
  | EApplication f a => simp [applicationFree] at hb

/-- Evaluation helper: the nesting depth is positive. -/
theorem depth_pos (e : Expression) : 0 < depth e := by
  cases e <;> simp [depth]

/-- Evaluation helper: when no abstraction body contains an application, and the values bound
in the current map are simple, fuel equal to the nesting depth suffices, and the value returned
and the values bound afterwards are simple. -/
theorem Interpret_terminates_simple (natives : Nat → Native) (c0 : Nat) (e : Expression) :
    bodiesApplicationFree e = true → ∀ heap : Heap,
      (∀ x v, heap c0 x = some v → v.Simple c0) →
      ∃ (v : Value) (heap1 : Heap),
        Interpret natives (depth e) heap c0 e = some ((v, none), heap1) ∧ v.Simple c0 ∧
          ∀ x w, heap1 c0 x = some w → w.Simple c0 := by
  induction e with
  | EInt n =>
    intro _ heap hinv
    exact ⟨.VInt n, heap, rfl, by simp [Value.Simple], hinv⟩
  | EVariable x =>
    intro _ heap hinv
    obtain ⟨v, hv, hs⟩ := Interpret_applicationFree natives c0 0 heap (.EVariable x) rfl hinv
    exact ⟨v, heap, hv, hs, hinv⟩
  | EAbstraction p T b _ =>
    intro hb heap hinv
    refine ⟨.VClosure c0 p b, heap, rfl, ?_, hinv⟩
    simp only [bodiesApplicationFree] at hb
    simp [Value.Simple, hb]
  | EApplication f a ihf iha =>
    intro hb heap hinv
    simp only [bodiesApplicationFree, Bool.and_eq_true] at hb
    obtain ⟨va, heapA, hra, hsa, hia⟩ := iha hb.2 heap hinv
    obtain ⟨vf, heapF, hrf, hsf, hif⟩ := ihf hb.1 heapA hia
    have hra1 := Interpret_fuel_mono natives _ _ _ _ _ hra (max (depth f) (depth a))
      (le_max_right _ _)
    have hrf1 := Interpret_fuel_mono natives _ _ _ _ _ hrf (max (depth f) (depth a))
      (le_max_left _ _)
    obtain ⟨k, hk⟩ : ∃ k, max (depth f) (depth a) = k + 1 :=
      ⟨max (depth f) (depth a) - 1, by have := depth_pos f; have := le_max_left (depth f) (depth a); omega⟩
    simp only [depth]
    rw [Interpret]
    simp only [hra1, hrf1]
    cases vf with
    | VClosure c p b =>
      simp only [Value.Simple] at hsf
      obtain ⟨rfl, hbf⟩ := hsf
      have hinv3 : ∀ x v, (heapF.set c p va) c x = some v → v.Simple c := by
        intro x v hx
        by_cases hxp : x = p
        · simp only [Heap.set, Context.set, hxp, if_true, Option.some.injEq] at hx
          subst hx
          exact hsa
        · simp only [Heap.set, Context.set, hxp, if_true, if_false] at hx
          exact hif x v hx
      obtain ⟨v, hv, hs⟩ := Interpret_applicationFree natives c k (heapF.set c p va) b hbf hinv3
      simp only [hk]
      exact ⟨v, _, hv, hs, hinv3⟩
    | VNative fn => simp [Value.Simple] at hsf
    | VInt n => exact ⟨_, heapF, rfl, by simp [Value.Simple], hif⟩
    | VNil => exact ⟨_, heapF, rfl, by simp [Value.Simple], hif⟩
    | VError err => exact ⟨_, heapF, rfl, by simp [Value.Simple], hif⟩

/-- Evaluation helper: the loop of `omega`. Once `x` is bound to the closure of `λx. x x` in
the map behind reference `0`, evaluating `x x` there exhausts every fuel. -/
theorem Interpret_omegaBody (natives : Nat → Native) :
    ∀ (fuel : Nat) (heap : Heap), heap 0 "x" = some (.VClosure 0 "x" omegaBody) →
      Interpret natives fuel heap 0 omegaBody = none := by
  intro fuel
  induction fuel with
  | zero => intro heap _; rfl
  | succ fuel ih =>
    intro heap hx
    cases fuel with
    | zero => rfl
    | succ fuel =>
      have hset : heap.set 0 "x" (.VClosure 0 "x" omegaBody) = heap := by
        funext c
        by_cases hc : c = 0
        · subst hc
          simp only [Heap.set, if_true]
          exact Context.set_eq_self (heap 0) "x" _ hx
        · simp [Heap.set, hc]
      have step : Interpret natives (fuel + 1 + 1) heap 0 omegaBody
          = Interpret natives (fuel + 1) (heap.set 0 "x" (.VClosure 0 "x" omegaBody)) 0
              omegaBody := by
        show Interpret natives (fuel + 1 + 1) heap 0
          (.EApplication (.EVariable "x") (.EVariable "x")) = _
        rw [Interpret]
        simp only [Interpret, Context.get, hx, Option.getD_some]
      rw [step, hset]
      exact ih heap hx

/-- Claim C14, counterexample: on the empty environment `(λx. x x) (λx. x x)`, of nesting depth
`4`, yields no result whatever the fuel, and neither does `(λf:Int→Int. f 1) (λx:Int. f x)`,
which `Infer` accepts on the empty context with type `Int`. -/
theorem Interpret_terminates_counterexample :
    (depth omega = 4 ∧
      ∀ (natives : Nat → Native) (fuel : Nat),
        Interpret natives fuel Heap.empty 0 omega = none) ∧
    ((Infer Context.empty acceptedLoop).1 = .ok .TInt ∧
      ∀ (natives : Nat → Native) (fuel : Nat),
        Interpret natives fuel Heap.empty 0 acceptedLoop = none) := by
  refine ⟨⟨rfl, ?_⟩, by decide, ?_⟩
  · intro natives fuel
    rcases fuel with _ | _ | fuel
    · rfl
    · rfl
    · exact Interpret_omegaBody natives (fuel + 1)
        (Heap.empty.set 0 "x" (.VClosure 0 "x" omegaBody)) rfl
  · intro natives fuel
    rcases fuel with _ | _ | _ | fuel
    · rfl
    · rfl
    · rfl
    · exact Interpret_knotBody natives (fuel + 1)
        ((Heap.empty.set 0 "f" (.VClosure 0 "x" knotBody)).set 0 "x" (.VInt 1)) rfl rfl

/-- Claim C14, amended: for every expression in which no abstraction has an application in its
body, and every starting environment that binds no closure and no host function, `Interpret`
terminates with recursion depth bounded by the nesting depth of the expression: every fuel
from the nesting depth on gives one and the same result, with a `nil` error. -/
theorem Interpret_terminates (natives : Nat → Native) (heap : Heap) (c0 : Nat) (e : Expression)
    (hb : bodiesApplicationFree e = true)
    (henv : ∀ x v, heap c0 x = some v →
      (∀ c p b, v ≠ .VClosure c p b) ∧ (∀ fn, v ≠ .VNative fn)) :
    ∃ (r : Value) (heap1 : Heap), ∀ fuel : Nat, depth e ≤ fuel →
      Interpret natives fuel heap c0 e = some ((r, none), heap1) := by
  have hinv : ∀ x v, heap c0 x = some v → v.Simple c0 := by
    intro x v hx
    obtain ⟨hc, hn⟩ := henv x v hx
    cases v with
    | VClosure c p b => exact absurd rfl (hc c p b)
    | VNative fn => exact absurd rfl (hn fn)
    | VInt n => simp [Value.Simple]
    | VNil => simp [Value.Simple]
    | VError err => simp [Value.Simple]
  obtain ⟨r, heap1, hrun, _, _⟩ := Interpret_terminates_simple natives c0 e hb heap hinv
  exact ⟨r, heap1, fun fuel hle => Interpret_fuel_mono natives _ _ _ _ _ hrun fuel hle⟩

/-- Witness: the identity on `Int` applied to `5`, of nesting depth `3`, on the empty
environment. -/
theorem Interpret_terminates_witness :
    ∃ (r : Value) (heap1 : Heap), ∀ fuel : Nat, depth identityApplied ≤ fuel →
      Interpret identityNatives fuel Heap.empty 0 identityApplied = some ((r, none), heap1) :=
  Interpret_terminates identityNatives Heap.empty 0 identityApplied (by decide)
    (fun x v hx => by simp [Heap.empty, Context.empty] at hx)

end STLC
